import Mathlib

/-!
# Verification of the `genomics` crate (davefol/rust-genomics)

Shallow embedding of `src/lib.rs` and `src/index_of_association.rs`.

Modelling conventions:
* `BTreeMap<String, V>` is modelled as a key-sorted association list
  `List (String × V)`; its get-or-insert / upsert entry API is `btreeUpsert`,
  its `get` is `btreeGet`.
* `HashMap` / `HashSet` whose iteration order is never observed by the
  claims are modelled as association lists in insertion order.
* `ndarray::Array2<T>` is modelled as a row-major `List (List T)`.
* `f32` arithmetic is modelled exactly over `ℚ`.  Rust `f32` division by
  zero yields `NaN`/`∞` (still an `Ok` value, not an error); Lean's `ℚ`
  convention `x / 0 = 0` likewise yields an ordinary value, so the
  error-vs-value structure of every modelled function is faithful even
  where the numeric value of a degenerate division differs.
* A Rust panic (out-of-bounds indexing or slicing, integer division by
  zero, `assign` length mismatch) is modelled as an explicit `panicked` /
  `Except.error` outcome, kept distinct from a returned `Err` value.
-/

/-- `String` order: `a < b` iff the character lists compare
lexicographically, matching Rust's `Ord for String` (byte-wise UTF-8 order,
which agrees with code-point order).  This instance decides it through the
structurally recursive list comparison, so that concrete instances of the
definitions below evaluate inside the kernel. -/
instance (priority := 2000) strDecLtFast : DecidableRel (fun (a b : String) => a < b) :=
  fun a b => decidable_of_iff (a.toList < b.toList) String.lt_iff_toList_lt.symm

abbrev AlleleCount := Nat

/-- Model of `Individual` (lib.rs): name, genome (`HashMap<Allele, u32>`,
keyed by locus and variation name since `Locus`/`Variation` hash and compare
by name), group memberships, metadata. -/
structure IndividualM where
  name : String
  genome : List ((String × String) × AlleleCount)
  groups : List String
  meta : List (String × String)
deriving DecidableEq, Repr

/-- `Individual::new` -/
def IndividualM.new (name : String) : IndividualM :=
  { name := name, genome := [], groups := [], meta := [] }

/-- Model of `AlleleMatrix` (lib.rs): dense count matrix, the per-locus
column-range table `loci`, and the staleness flag `dirty`. -/
structure AlleleMatrixM where
  data : List (List AlleleCount)
  loci : List (Nat × Nat)
  dirty : Bool
deriving DecidableEq, Repr

/-- `AlleleMatrix::new`: a `0 × 0` zero matrix, empty range table, not dirty. -/
def AlleleMatrixM.new : AlleleMatrixM :=
  { data := [], loci := [], dirty := false }

/-- Model of `Sample` (lib.rs): `loci : BTreeMap<String, Arc<Locus>>`
(each locus owning a `BTreeMap` of variation names, modelled as the sorted
list of those keys), `groups : HashMap<String, Arc<Group>>` (key set),
`individuals : BTreeMap<String, Individual>`, and the derived matrix. -/
structure SampleM where
  loci : List (String × List String)
  groups : List String
  individuals : List (String × IndividualM)
  matrix : AlleleMatrixM
deriving DecidableEq, Repr

/-- `Sample::new` -/
def SampleM.new : SampleM :=
  { loci := [], groups := [], individuals := [], matrix := AlleleMatrixM.new }

/-- Model of the `Observation` enum (lib.rs). -/
inductive ObservationM where
  | allele (individual locus variation : String)
  | group (individual g : String)
  | meta (individual key value : String)
deriving DecidableEq, Repr

/-- Sorted insertion of a key into the sorted key list of a `BTreeMap`
(no effect when the key is already present). -/
def sortedInsert (x : String) : List String → List String
  | [] => [x]
  | y :: rest =>
    if x < y then x :: y :: rest
    else if x = y then y :: rest
    else y :: sortedInsert x rest

/-- `BTreeMap` entry API: `map.entry(k).or_insert(d)` followed by applying
`f` to the (found or freshly inserted) value.  Plain `or_insert(d)` is the
special case `f = id`. -/
def btreeUpsert {α : Type} (k : String) (d : α) (f : α → α) :
    List (String × α) → List (String × α)
  | [] => [(k, f d)]
  | (k', v) :: rest =>
    if k < k' then (k, f d) :: (k', v) :: rest
    else if k = k' then (k', f v) :: rest
    else (k', v) :: btreeUpsert k d f rest

/-- `BTreeMap::get`. -/
def btreeGet {α : Type} (k : String) : List (String × α) → Option α
  | [] => none
  | (k', v) :: rest => if k = k' then some v else btreeGet k rest

/-- `HashMap<Allele, u32>` lookup used by `From<&Sample> for Vec<AlleleCount>`:
`genome.get(&(locus, variation))`, defaulting to 0. -/
def genomeGet (g : List ((String × String) × AlleleCount)) (k : String × String) :
    AlleleCount :=
  match g.find? (fun p => decide (p.1 = k)) with
  | some p => p.2
  | none => 0

/-- `genome.entry(allele).or_insert(0) += 1` (lib.rs `_observe`, Allele arm). -/
def genomeIncr (g : List ((String × String) × AlleleCount)) (k : String × String) :
    List ((String × String) × AlleleCount) :=
  if g.any (fun p => decide (p.1 = k)) then
    g.map (fun p => if p.1 = k then (p.1, p.2 + 1) else p)
  else g ++ [(k, 1)]

/-- `HashSet::insert` (group memberships). -/
def setInsert (l : List String) (x : String) : List String :=
  if l.any (fun y => decide (y = x)) then l else l ++ [x]

/-- `HashMap::insert` with overwrite (metadata, last write wins). -/
def mapInsert (m : List (String × String)) (k v : String) : List (String × String) :=
  if m.any (fun p => decide (p.1 = k)) then
    m.map (fun p => if p.1 = k then (p.1, v) else p)
  else m ++ [(k, v)]

/-- `Sample::allele` (lib.rs lines 207-229).  Both `or_insert` calls take
their argument eagerly — the block `{ self.matrix.dirty = true; Arc::new(..) }`
runs on every call, so the dirty flag is set whether or not the locus or
variation already existed.  Net registry effect: ensure the locus exists
(empty variation set when new), then insert the variation name into its
sorted variation set.  Returns the `(locus, variation)` handle pair. -/
def SampleM.allele (s : SampleM) (locus variation : String) :
    SampleM × (String × String) :=
  ({ s with
      loci := btreeUpsert locus [] (sortedInsert variation) s.loci
      matrix := { s.matrix with dirty := true } },
    (locus, variation))

/-- `Sample::group` (lib.rs lines 235-243).  The `or_insert` argument is
eager, so `dirty` is set on every call. -/
def SampleM.group (s : SampleM) (g : String) : SampleM × String :=
  ({ s with
      groups := setInsert s.groups g
      matrix := { s.matrix with dirty := true } },
    g)

/-- `Sample::_observe` (lib.rs lines 250-278). -/
def SampleM._observe (s : SampleM) (o : ObservationM) : SampleM :=
  match o with
  | .allele individual locus variation =>
    let sa := s.allele locus variation
    { sa.1 with
        individuals := btreeUpsert individual (IndividualM.new individual)
          (fun i => { i with genome := genomeIncr i.genome sa.2 }) sa.1.individuals }
  | .group individual g =>
    let sg := s.group g
    { sg.1 with
        individuals := btreeUpsert individual (IndividualM.new individual)
          (fun i => { i with groups := setInsert i.groups sg.2 }) sg.1.individuals }
  | .meta individual key value =>
    { s with
        individuals := btreeUpsert individual (IndividualM.new individual)
          (fun i => { i with meta := mapInsert i.meta key value }) s.individuals }

/-- Folding a list of observations into a sample (`_observe` on each). -/
def SampleM.applyAll (s : SampleM) (l : List ObservationM) : SampleM :=
  l.foldl SampleM._observe s

/-- `Sample::observe` (lib.rs lines 281-289): the `for` loop applies each
`Ok` observation in order and returns at the first `Err`, leaving the
already-applied mutations in place.  Modelled by returning the final state
together with the first error, if any. -/
def SampleM.observe (s : SampleM) :
    List (Except String ObservationM) → SampleM × Option String
  | [] => (s, none)
  | .error e :: _ => (s, some e)
  | .ok o :: rest => SampleM.observe (s._observe o) rest

/-- `Sample::loci_names` (lib.rs): the `BTreeMap` key sequence. -/
def SampleM.loci_names (s : SampleM) : List String :=
  s.loci.map Prod.fst

/-- `Sample::variations` (lib.rs): optional sorted variation-name list. -/
def SampleM.variations (s : SampleM) (locus : String) : Option (List String) :=
  btreeGet locus s.loci

/-- `From<&Sample> for Vec<AlleleCount>` (lib.rs lines 304-321): row-major
counts, individuals in key order, then loci in key order, then variations
in key order. -/
def SampleM.toVec (s : SampleM) : List AlleleCount :=
  s.individuals.flatMap (fun pi =>
    s.loci.flatMap (fun pl =>
      pl.2.map (fun vname => genomeGet pi.2.genome (pl.1, vname))))

/-- The per-locus column-range table computed inside `Sample::flush`
(lib.rs lines 194-196): `self.loci.iter().enumerate().map(|(i, x)|
(i, i + x.1.variations.lock().unwrap().len()))` — the start of each range
is the locus index `i`, not a cumulative sum of variation counts. -/
def SampleM.flushRanges (s : SampleM) : List (Nat × Nat) :=
  s.loci.enum.map (fun p => (p.1, p.1 + p.2.2.length))

/-- Outcomes of `AlleleMatrix::from_vec` / `Sample::flush` other than
success.  `shape` models a returned `Err(ShapeError)`; `panicked` models a
Rust panic (a crash, not a returned error value). -/
inductive FlushErr where
  | shape
  | panicked
deriving DecidableEq, Repr

/-- Splits a flat vector into `nrows` rows of `ncols` entries. -/
def toRows (data : List AlleleCount) (nrows ncols : Nat) : List (List AlleleCount) :=
  (List.range nrows).map (fun i => (data.drop (i * ncols)).take ncols)

/-- `AlleleMatrix::from_vec` (lib.rs lines 125-132).
`let alleles = data.len() / individuals;` is Rust integer division: it
panics when `individuals == 0`.  Otherwise
`Array::from_shape_vec((individuals, alleles).strides((alleles, 1)), data)`
yields a shape error when the data length does not fill the
`individuals × alleles` row-major layout. -/
def AlleleMatrixM.from_vec (individuals : Nat) (loci : List (Nat × Nat))
    (data : List AlleleCount) : Except FlushErr AlleleMatrixM :=
  if individuals = 0 then .error .panicked
  else
    let alleles := data.length / individuals
    if data.length = individuals * alleles then
      .ok { data := toRows data individuals alleles, loci := loci, dirty := false }
    else .error .shape

/-- `Sample::flush` (lib.rs lines 188-199): recompute the range table,
rebuild the matrix wholesale from the registry via `from_vec`, propagate
its error with `?`. -/
def SampleM.flush (s : SampleM) : Except FlushErr SampleM :=
  match AlleleMatrixM.from_vec s.individuals.length s.flushRanges s.toVec with
  | .error e => .error e
  | .ok m => .ok { s with matrix := m }

/-- The locus table hardcoded inside `AlleleMatrix::frequency` (lib.rs
line 138): `let loci: [(usize, usize); 2] = [(0, 3), (3, 6)];` — it shadows
and ignores the matrix's own `self.loci` range table. -/
def lociHardcoded : List (Nat × Nat) := [(0, 3), (3, 6)]

/-- `row.slice(s![a..b])` on a 1-D row. -/
def sliceOf (r : List ℚ) (a b : Nat) : List ℚ := (r.drop a).take (b - a)

/-- `f32::abs`. -/
def qAbs (q : ℚ) : ℚ := if q < 0 then -q else q

/-- One row of `AlleleMatrix::frequency` (lib.rs lines 140-147): for each
hardcoded range, divide the slice entrywise by the slice sum, concatenate,
and `assign` into the output row.  Panic conditions modelled as
`Except.error`: an ndarray slice `s![a..b]` panics unless `a ≤ b ≤ len`,
and `assign` panics unless the assembled vector has the row's length. -/
def freqRow (r : List ℚ) : Except Unit (List ℚ) :=
  if lociHardcoded.all (fun p => p.1 ≤ p.2 && p.2 ≤ r.length) then
    let x := lociHardcoded.flatMap (fun p =>
      let s := (sliceOf r p.1 p.2).sum
      (sliceOf r p.1 p.2).map (fun v => v / s))
    if x.length = r.length then .ok x else .error ()
  else .error ()

/-- `x as f32` on an allele count. -/
def rowQ (row : List AlleleCount) : List ℚ :=
  row.map (fun c => ((c : Nat) : ℚ))

/-- Row-by-row driver of the `Zip` loop in `frequency`, stopping at the
first panicking row. -/
def freqRows : List (List AlleleCount) → Except Unit (List (List ℚ))
  | [] => Except.ok []
  | row :: rest =>
    match freqRow (rowQ row), freqRows rest with
    | Except.ok x, Except.ok xs => Except.ok (x :: xs)
    | Except.error e, _ => Except.error e
    | _, Except.error e => Except.error e

/-- `AlleleMatrix::frequency` (lib.rs lines 135-149).  The Rust function
always returns `Ok` when it does not panic; `Except.error` here marks a
panic, never a returned `Err`. -/
def AlleleMatrixM.frequency (m : AlleleMatrixM) : Except Unit (List (List ℚ)) :=
  freqRows m.data

/-- The `indices` map of `index_of_association` (index_of_association.rs
lines 23-30), as the insertion-ordered pair list; the counter value of a
pair is its position in this list.  Note the inner loop is
`for j in i..n_freqs` — it starts at `j = i`, also enumerating the
diagonal pairs `(i, i)`. -/
def pairIndexList (n : Nat) : List (Nat × Nat) :=
  (List.range (n - 1)).flatMap (fun i => (List.range' i (n - i)).map (fun j => (i, j)))

/-- The pairs visited by the distance loop (index_of_association.rs lines
36-37): `i` in `0..n-1`, `j` in `i+1..n`. -/
def distancePairs (n : Nat) : List (Nat × Nat) :=
  (List.range (n - 1)).flatMap (fun i =>
    (List.range' (i + 1) (n - (i + 1))).map (fun j => (i, j)))

/-- In-place 2-D write `D[[r, c]] = v`. -/
def listSet2 (D : List (List ℚ)) (r c : Nat) (v : ℚ) : List (List ℚ) :=
  D.set r (((D.get? r).getD []).set c v)

/-- L1 distance between two row slices (index_of_association.rs lines
43-47). -/
def sliceL1 (r₁ r₂ : List ℚ) (a b : Nat) : ℚ :=
  (((sliceOf r₁ a b).zip (sliceOf r₂ a b)).map (fun p => qAbs (p.1 - p.2))).sum

/-- The writes performed for one individual pair `pr` across all loci
(index_of_association.rs lines 38-48).  Panic conditions modelled as
`Except.error`: slicing a frequency row out of range, or indexing the
`distances` array out of bounds at row `indices[&(i, j)]`. -/
def writePairDistances (freqs : List (List ℚ)) (lociT : List (Nat × Nat)) (n : Nat)
    (D : List (List ℚ)) (pr : Nat × Nat) : Except Unit (List (List ℚ)) :=
  lociT.enum.foldlM (fun Dcur idxab =>
    let idx := idxab.1
    let a := idxab.2.1
    let b := idxab.2.2
    let ri := (freqs.get? pr.1).getD []
    let rj := (freqs.get? pr.2).getD []
    if a ≤ b ∧ b ≤ ri.length ∧ b ≤ rj.length then
      let r := (pairIndexList n).indexOf pr
      if r < Dcur.length ∧ idx < ((Dcur.get? r).getD []).length then
        Except.ok (listSet2 Dcur r idx (sliceL1 ri rj a b))
      else Except.error ()
    else Except.error ()) D

/-- The full distance-matrix computation (index_of_association.rs lines
32-50): a zero matrix of `n(n-1)/2` rows and one column per locus range,
filled by the pair loop. -/
def computeDistances (freqs : List (List ℚ)) (lociT : List (Nat × Nat)) :
    Except Unit (List (List ℚ)) :=
  let n := freqs.length
  let nD := n * (n - 1) / 2
  (distancePairs n).foldlM (writePairDistances freqs lociT n)
    (List.replicate nD (List.replicate lociT.length (0 : ℚ)))

/-- The final statistic computed from the distance matrix
(index_of_association.rs lines 52-70):
`variance = (Σ_p (row sum)² − (Σ_p row sum)² / P) / P`,
`expected_variance = Σ_l (Σ_p D[p,l]² − (Σ_p D[p,l]) / P) / P`
(the subtracted term of the second formula is the plain column sum, not its
square), result `variance / expected_variance − 1`. -/
def ioaStat (D : List (List ℚ)) (P L : Nat) : ℚ :=
  let variance :=
    ((D.map (fun row => row.sum ^ 2)).sum -
      ((D.map (fun row => row.sum)).sum) ^ 2 / (P : ℚ)) / (P : ℚ)
  let expected_variance :=
    ((List.range L).map (fun l =>
      ((D.map (fun row => row.getD l 0 ^ 2)).sum -
        (D.map (fun row => row.getD l 0)).sum / (P : ℚ)) / (P : ℚ))).sum
  variance / expected_variance - 1

/-- Result of `IndexOfAssociation::index_of_association`: `ok` models a
returned `Ok(summary)`, `err` a returned boxed error, `panicked` a Rust
panic (a crash, not a value). -/
inductive IoaResult where
  | ok (value : ℚ)
  | err
  | panicked
deriving DecidableEq, Repr

/-- `IndexOfAssociation::index_of_association for Sample`
(index_of_association.rs lines 15-75): flush when dirty (propagating its
error with `?`), take frequencies, build the pair-index map and the
distance matrix, then compute the statistic. -/
def SampleM.index_of_association (s : SampleM) : IoaResult :=
  match (if s.matrix.dirty then s.flush else .ok s) with
  | .error .shape => .err
  | .error .panicked => .panicked
  | .ok s' =>
    match s'.matrix.frequency with
    | .error _ => .panicked
    | .ok freqs =>
      let nD := freqs.length * (freqs.length - 1) / 2
      match computeDistances freqs s'.matrix.loci with
      | .error _ => .panicked
      | .ok D => .ok (ioaStat D nD s'.matrix.loci.length)

/-!
## Spec-side comparator definitions

These definitions follow the specification's words (not the source) and
exist only to be compared against the source-derived definitions above.
-/

/-- Spec comparator: "each locus's range starts at the sum of the variation
counts of all preceding loci and has length equal to its own variation
count" (spec §4.2), from the list of per-locus variation counts. -/
def cumulativeRanges (counts : List Nat) : List (Nat × Nat) :=
  (List.range counts.length).map (fun i =>
    ((counts.take i).sum, (counts.take i).sum + counts.getD i 0))

/-- Spec comparator: frequency normalization that "divides each value by
that range's row-sum" for "every locus's column range" as recorded in the
matrix's own `loci` table (spec §4.3). -/
def specFrequency (m : AlleleMatrixM) : List (List ℚ) :=
  m.data.map (fun row =>
    let r : List ℚ := rowQ row
    m.loci.flatMap (fun p =>
      let s := (sliceOf r p.1 p.2).sum
      (sliceOf r p.1 p.2).map (fun v => v / s)))

/-- The per-pair totals `T_p = Σ_l D[p,l]` of the claimed formulas. -/
def pairTotals (D : List (List ℚ)) : List ℚ := D.map List.sum

/-- Column `l` of the distance matrix, `(D[p,l])_p`. -/
def columnOf (D : List (List ℚ)) (l : Nat) : List ℚ :=
  D.map (fun row => row.getD l 0)

/-- Spec formula: observed variance `V_O = (Σ_p T_p² − (Σ_p T_p)² / P) / P`. -/
def specObservedVar (D : List (List ℚ)) (P : Nat) : ℚ :=
  (((pairTotals D).map (fun t => t ^ 2)).sum - (pairTotals D).sum ^ 2 / (P : ℚ)) / (P : ℚ)

/-- Spec formula: expected variance
`V_E = Σ_l (Σ_p D[p,l]² − Σ_p D[p,l] / P) / P`, with the plain (not
squared) column sum in the subtracted term. -/
def specExpectedVar (D : List (List ℚ)) (P L : Nat) : ℚ :=
  ((List.range L).map (fun l =>
    (((columnOf D l).map (fun x => x ^ 2)).sum - (columnOf D l).sum / (P : ℚ)) / (P : ℚ))).sum

/-!
## Auxiliary definitions for the theorems
-/

/-- The effect of one observation on the `loci` registry alone
(the Allele arm of `_observe` via `Sample::allele`; Group and Meta leave
`loci` untouched). -/
def lociUpd (m : List (String × List String)) : ObservationM → List (String × List String)
  | .allele _ loc v => btreeUpsert loc [] (sortedInsert v) m
  | .group _ _ => m
  | .meta _ _ _ => m

/-- Whether an observation is an Allele observation. -/
def isAlleleObs : ObservationM → Bool
  | .allele _ _ _ => true
  | _ => false

/-- The `Ok` payload of a `Result<Observation, Error>` element. -/
def okPart : Except String ObservationM → Option ObservationM
  | .ok o => some o
  | .error _ => none

/-- Key-sorted map with sorted variation lists: the invariant maintained by
the `BTreeMap`-based registry. -/
def MapSorted (m : List (String × List String)) : Prop :=
  (m.map Prod.fst).Sorted (· < ·) ∧ ∀ p ∈ m, p.2.Sorted (· < ·)

/-!
## Concrete inputs used by the closed theorems
-/

/-- Six Allele observations: one individual carrying one copy of each of
three variations at each of two loci (a 1 × 6 count matrix after flush). -/
def obsSingle : List ObservationM :=
  [.allele "i1" "L1" "a", .allele "i1" "L1" "b", .allele "i1" "L1" "c",
   .allele "i1" "L2" "d", .allele "i1" "L2" "e", .allele "i1" "L2" "f"]

/-- The same genotype for a second individual: two individuals, two loci
with three variations each (a 2 × 6 count matrix after flush). -/
def obsTwo : List ObservationM := obsSingle ++
  [.allele "i2" "L1" "a", .allele "i2" "L1" "b", .allele "i2" "L1" "c",
   .allele "i2" "L2" "d", .allele "i2" "L2" "e", .allele "i2" "L2" "f"]

/-- A registry with two loci: "A" with variations {a, b} and "B" with {c}
(per-locus variation counts [2, 1]). -/
def sTwoLoci : SampleM :=
  { loci := [("A", ["a", "b"]), ("B", ["c"])], groups := [], individuals := [],
    matrix := AlleleMatrixM.new }

/-- An allele-count matrix with one individual row `[1,1,1,1,1,1]` and a
loci table of three two-column ranges. -/
def mThreeLoci : AlleleMatrixM :=
  { data := [[1, 1, 1, 1, 1, 1]], loci := [(0, 2), (2, 4), (4, 6)], dirty := false }

/-- Two Allele observations. -/
def obsPermA : List ObservationM :=
  [.allele "i1" "L2" "b", .allele "i2" "L1" "a"]

/-- The same two Allele observations in the opposite order. -/
def obsPermB : List ObservationM :=
  [.allele "i2" "L1" "a", .allele "i1" "L2" "b"]

/-- An observation stream whose third element is an error. -/
def obsStream : List (Except String ObservationM) :=
  [Except.ok (.allele "i1" "L1" "a"), Except.ok (.group "i1" "G1"),
   Except.error "bad row", Except.ok (.allele "i9" "L9" "z")]

/-- Whether an `index_of_association` outcome is a returned `Ok` value. -/
def IoaResult.isOkValue : IoaResult → Bool
  | .ok _ => true
  | _ => false

/-!
## Helper lemmas
-/

/-- On a 6-entry row, `frequency`'s per-row computation succeeds and returns
the concatenated hardcoded-range normalizations. -/
theorem freqRow_eq_ok_of_six {r : List ℚ} (h : r.length = 6) :
    freqRow r = Except.ok
      ((sliceOf r 0 3).map (fun v => v / (sliceOf r 0 3).sum) ++
       ((sliceOf r 3 6).map (fun v => v / (sliceOf r 3 6).sum) ++ [])) := by
  simp [freqRow, lociHardcoded, sliceOf, h]

/-!
## Claim theorems
-/

/-- C1.  The claim states the pair-index map enumerates exactly the pairs
`(i, j)` with `i < j` and that every distance-matrix write lands in a row
`0 ≤ r < P` with `P = n(n−1)/2`.  In the code the index map is built with
`for j in i..n_freqs` — the diagonal pairs `(i, i)` are also enumerated, so
pair `(0, 1)` of a 2-individual sample receives index 1 while the distance
matrix has `P = 1` row: the write is out of bounds and the whole
computation panics on a well-formed two-individual sample. -/
theorem ioa_pair_index_out_of_bounds :
    pairIndexList 2 = [(0, 0), (0, 1)] ∧
    (pairIndexList 2).indexOf (0, 1) = 1 ∧
    2 * (2 - 1) / 2 = 1 ∧
    ¬((pairIndexList 2).indexOf (0, 1) < 2 * (2 - 1) / 2) ∧
    (SampleM.new.applyAll obsTwo).index_of_association = IoaResult.panicked := by
  refine ⟨by decide, by decide, by decide, by decide, by decide⟩

/-- C2.  The claim states `flush` computes the per-locus column ranges by
cumulative variation counts, partitioning the columns.  The code computes
`(i, i + count_i)` with `i` the locus *index*: for variation counts
`[2, 1]` it yields the overlapping, non-partitioning table `[(0,2),(1,2)]`
instead of the cumulative `[(0,2),(2,3)]`. -/
theorem flush_ranges_not_cumulative :
    sTwoLoci.flushRanges = [(0, 2), (1, 2)] ∧
    cumulativeRanges [2, 1] = [(0, 2), (2, 3)] ∧
    sTwoLoci.flushRanges ≠ cumulativeRanges (sTwoLoci.loci.map (fun p => p.2.length)) := by
  refine ⟨by decide, by decide, by decide⟩

/-- C3.  The claim states `frequency` divides each entry by the row-sum of
that entry's own locus column range as recorded in the matrix's `loci`
table.  The code ignores the table and uses the hardcoded ranges
`[(0,3),(3,6)]`: on a matrix whose table records three 2-column loci with
row `[1,1,1,1,1,1]` it returns entries `1/3` where the recorded table
requires `1/2`; and on any matrix without exactly 6 columns it panics. -/
theorem frequency_ignores_loci_table :
    mThreeLoci.frequency = Except.ok [[1/3, 1/3, 1/3, 1/3, 1/3, 1/3]] ∧
    specFrequency mThreeLoci = [[1/2, 1/2, 1/2, 1/2, 1/2, 1/2]] ∧
    mThreeLoci.frequency ≠ Except.ok (specFrequency mThreeLoci) ∧
    AlleleMatrixM.frequency { data := [[1]], loci := [(0, 1)], dirty := false } =
      Except.error () := by
  have ha : mThreeLoci.frequency = Except.ok [[1/3, 1/3, 1/3, 1/3, 1/3, 1/3]] := by
    show freqRows [[1, 1, 1, 1, 1, 1]] = _
    norm_num [freqRows, freqRow, rowQ, lociHardcoded, sliceOf]
  have hb : specFrequency mThreeLoci = [[1/2, 1/2, 1/2, 1/2, 1/2, 1/2]] := by
    norm_num [specFrequency, mThreeLoci, rowQ, sliceOf]
  refine ⟨ha, hb, ?_, ?_⟩
  · rw [ha, hb]
    intro h
    injection h with h
    simp at h
  · show freqRows [[1]] = _
    norm_num [freqRows, freqRow, rowQ, lociHardcoded, sliceOf]

/-- C4.  The claim states every `_observe`-applied mutation able to change
the matrix — including creation of a new individual — sets the staleness
flag.  A `Meta` observation on a clean sample creates a brand-new
individual (a new matrix row at the next rebuild) yet leaves
`matrix.dirty = false`, so a rebuild-when-stale reader keeps the stale
matrix. -/
theorem meta_observation_leaves_matrix_clean :
    (SampleM.new._observe (.meta "ind1" "site" "farmA")).matrix.dirty = false ∧
    (SampleM.new._observe (.meta "ind1" "site" "farmA")).individuals ≠
      SampleM.new.individuals := by
  refine ⟨by decide, by decide⟩

/-- C8.  The claim states `flush` returns a shape error rather than
crashing on degenerate reshapes, in particular with zero individuals.  The
code's `let alleles = data.len() / individuals;` divides by zero and panics
when the sample holds no individuals (e.g. a fresh sample); and with
nonzero individuals and zero columns `from_vec` returns `Ok`, not a shape
error. -/
theorem flush_zero_individuals_panics :
    SampleM.new.individuals.length = 0 ∧
    SampleM.new.flush = Except.error FlushErr.panicked ∧
    (AlleleMatrixM.from_vec 1 [] []).isOk = true := by
  refine ⟨by decide, rfl, by decide⟩

/-- C10.  `Sample::allele` and `Sample::group` pass the staleness-setting
block as the eagerly evaluated argument of `or_insert`, so after every call
— creation or not — the matrix staleness flag is `true`. -/
theorem allele_group_always_set_dirty (s : SampleM) (locus variation g : String) :
    (s.allele locus variation).1.matrix.dirty = true ∧
    (s.group g).1.matrix.dirty = true :=
  ⟨rfl, rfl⟩

/-- C6.  Given any distance matrix `D`, pair count `P` and locus count `L`,
the statistic computed by the tail of `index_of_association` equals the
claimed formulas: observed variance `(Σ_p T_p² − (Σ_p T_p)²/P)/P`, expected
variance `Σ_l (Σ_p D[p,l]² − (Σ_p D[p,l])/P)/P` with the plain (unsquared)
sum in the subtracted term, and result `V_O / V_E − 1`. -/
theorem ioa_statistic_matches_spec_formulas (D : List (List ℚ)) (P L : Nat) :
    ioaStat D P L = specObservedVar D P / specExpectedVar D P L - 1 := by
  simp [ioaStat, specObservedVar, specExpectedVar, pairTotals, columnOf, List.map_map,
    Function.comp_def]

/-- C5 counterexample.  A sample with exactly one individual (two loci,
three variations each) makes `index_of_association` return an `Ok` value —
not the explicit error the claim requires for fewer than 2 individuals.
(In the real `f32` arithmetic the returned number is NaN, produced by
dividing by the zero pair count — still a silent `Ok`.) -/
theorem ioa_single_individual_ok_counterexample :
    (SampleM.new.applyAll obsSingle).individuals.length = 1 ∧
    (SampleM.new.applyAll obsSingle).index_of_association.isOkValue = true := by
  refine ⟨by decide, by decide⟩

/-- C5 amended.  `index_of_association` performs no degenerate-input
checks: on every flushed sample with exactly one individual whose matrix
has the 6 columns the hardcoded frequency ranges require, it silently
returns an `Ok` value (NaN in the `f32` arithmetic) instead of an error;
its only `Err` path is an error propagated from `flush`. -/
theorem ioa_single_individual_returns_ok (s : SampleM)
    (hdirty : s.matrix.dirty = false)
    (hrows : s.matrix.data.length = 1)
    (hcols : ∀ r ∈ s.matrix.data, r.length = 6) :
    s.index_of_association.isOkValue = true := by
  obtain ⟨row, hdata⟩ : ∃ row, s.matrix.data = [row] := by
    cases hd : s.matrix.data with
    | nil => rw [hd] at hrows; simp at hrows
    | cons a t =>
      cases t with
      | nil => exact ⟨a, rfl⟩
      | cons b t2 => rw [hd] at hrows; simp at hrows
  have hrow6 : (rowQ row).length = 6 := by
    rw [rowQ, List.length_map]
    exact hcols row (by rw [hdata]; exact List.mem_singleton_self row)
  have hx := freqRow_eq_ok_of_six hrow6
  simp [SampleM.index_of_association, hdirty, AlleleMatrixM.frequency, hdata, freqRows, hx,
    computeDistances, distancePairs, IoaResult.isOkValue, pure, Except.pure]

/-- C5 witness: the amended theorem applied to a concrete flushed
single-individual sample with a 6-column matrix. -/
theorem ioa_single_individual_returns_ok_witness :
    (SampleM.mk [] [] [("i1", IndividualM.new "i1")]
        { data := [[1, 1, 1, 1, 1, 1]], loci := [(0, 3), (3, 6)],
          dirty := false }).index_of_association.isOkValue = true :=
  ioa_single_individual_returns_ok _ rfl (by decide) (by decide)

/-!
## Registry-map lemmas (for the order-independence claim)
-/

theorem mem_sortedInsert (a x : String) (l : List String) :
    x ∈ sortedInsert a l ↔ x = a ∨ x ∈ l := by
  induction l with
  | nil => simp [sortedInsert]
  | cons y rest ih =>
    simp only [sortedInsert]
    split_ifs with h1 h2
    · simp [List.mem_cons]
    · subst h2
      simp only [List.mem_cons]
      tauto
    · simp only [List.mem_cons, ih]
      tauto

theorem sorted_sortedInsert (a : String) (l : List String)
    (h : l.Sorted (· < ·)) : (sortedInsert a l).Sorted (· < ·) := by
  induction l with
  | nil => simp [sortedInsert]
  | cons y rest ih =>
    rw [List.sorted_cons] at h
    obtain ⟨hy, hrest⟩ := h
    simp only [sortedInsert]
    split_ifs with h1 h2
    · rw [List.sorted_cons]
      constructor
      · intro b hb
        rcases List.mem_cons.mp hb with rfl | hb
        · exact h1
        · exact lt_trans h1 (hy b hb)
      · rw [List.sorted_cons]
        exact ⟨hy, hrest⟩
    · rw [List.sorted_cons]
      exact ⟨hy, hrest⟩
    · rw [List.sorted_cons]
      refine ⟨?_, ih hrest⟩
      intro b hb
      rcases (mem_sortedInsert a b rest).mp hb with rfl | hb
      · rcases lt_trichotomy b y with hlt | heq | hgt
        · exact absurd hlt h1
        · exact absurd heq h2
        · exact hgt
      · exact hy b hb

theorem keys_btreeUpsert {α : Type} (k : String) (d : α) (f : α → α)
    (m : List (String × α)) :
    (btreeUpsert k d f m).map Prod.fst = sortedInsert k (m.map Prod.fst) := by
  induction m with
  | nil => simp [btreeUpsert, sortedInsert]
  | cons p rest ih =>
    obtain ⟨k', v⟩ := p
    simp only [btreeUpsert, List.map_cons, sortedInsert]
    split_ifs with h1 h2
    · simp
    · simp [h2]
    · simp [ih]

theorem btreeGet_eq_none {α : Type} {k : String} {m : List (String × α)}
    (h : k ∉ m.map Prod.fst) : btreeGet k m = none := by
  induction m with
  | nil => rfl
  | cons p rest ih =>
    obtain ⟨k', v⟩ := p
    simp only [List.map_cons, List.mem_cons] at h
    push_neg at h
    simp [btreeGet, h.1, ih h.2]

theorem btreeGet_isSome_of_mem {α : Type} {k : String} {m : List (String × α)}
    (h : k ∈ m.map Prod.fst) : ∃ v, btreeGet k m = some v := by
  induction m with
  | nil => simp at h
  | cons p rest ih =>
    obtain ⟨k', v⟩ := p
    by_cases hk : k = k'
    · exact ⟨v, by simp [btreeGet, hk]⟩
    · simp only [List.map_cons, List.mem_cons] at h
      rcases h with h | h
      · exact absurd h hk
      · obtain ⟨w, hw⟩ := ih h
        exact ⟨w, by simp [btreeGet, hk, hw]⟩

theorem btreeGet_btreeUpsert_self {α : Type} (k : String) (d : α) (f : α → α)
    (m : List (String × α)) (hs : (m.map Prod.fst).Sorted (· < ·)) :
    btreeGet k (btreeUpsert k d f m) = some (f ((btreeGet k m).getD d)) := by
  induction m with
  | nil => simp [btreeUpsert, btreeGet]
  | cons p rest ih =>
    obtain ⟨k', v⟩ := p
    simp only [List.map_cons, List.sorted_cons] at hs
    obtain ⟨hk', hrest⟩ := hs
    simp only [btreeUpsert]
    split_ifs with h1 h2
    · have hne : k ≠ k' := ne_of_lt h1
      have hnot : k ∉ rest.map Prod.fst := by
        intro hmem
        exact absurd (lt_trans h1 (hk' k hmem)) (lt_irrefl k)
      simp [btreeGet, hne, btreeGet_eq_none hnot]
    · subst h2
      simp [btreeGet]
    · simp [btreeGet, h2, ih hrest]

theorem btreeGet_btreeUpsert_ne {α : Type} {x k : String} (hx : x ≠ k) (d : α)
    (f : α → α) (m : List (String × α)) :
    btreeGet x (btreeUpsert k d f m) = btreeGet x m := by
  induction m with
  | nil => simp [btreeUpsert, btreeGet, hx]
  | cons p rest ih =>
    obtain ⟨k', v⟩ := p
    simp only [btreeUpsert]
    split_ifs with h1 h2
    · simp [btreeGet, hx]
    · subst h2
      by_cases hxk : x = k
      · exact absurd hxk hx
      · simp [btreeGet, hxk]
    · by_cases hxk : x = k'
      · simp [btreeGet, hxk]
      · simp [btreeGet, hxk, ih]

theorem mem_of_btreeGet_eq_some {α : Type} {k : String} {v : α}
    {m : List (String × α)} (h : btreeGet k m = some v) : (k, v) ∈ m := by
  induction m with
  | nil => simp [btreeGet] at h
  | cons p rest ih =>
    obtain ⟨k', v'⟩ := p
    by_cases hk : k = k'
    · subst hk
      have hg : btreeGet k ((k, v') :: rest) = some v' := by simp [btreeGet]
      rw [hg] at h
      injection h with h
      subst h
      exact List.mem_cons_self _ _
    · simp only [btreeGet, if_neg hk] at h
      exact List.mem_cons_of_mem _ (ih h)

theorem assoc_ext {α : Type} : ∀ (m₁ m₂ : List (String × α)),
    m₁.map Prod.fst = m₂.map Prod.fst →
    (m₁.map Prod.fst).Nodup →
    (∀ k, btreeGet k m₁ = btreeGet k m₂) → m₁ = m₂ := by
  intro m₁
  induction m₁ with
  | nil =>
    intro m₂ hkeys _ _
    cases m₂ with
    | nil => rfl
    | cons q t => simp at hkeys
  | cons p t₁ ih =>
    intro m₂ hkeys hnd hget
    cases m₂ with
    | nil => simp at hkeys
    | cons q t₂ =>
      obtain ⟨k₁, v₁⟩ := p
      obtain ⟨k₂, v₂⟩ := q
      simp only [List.map_cons, List.cons.injEq] at hkeys
      obtain ⟨hk, hkt⟩ := hkeys
      subst hk
      have hv : v₁ = v₂ := by
        have hh := hget k₁
        simpa [btreeGet] using hh
      subst hv
      simp only [List.map_cons, List.nodup_cons] at hnd
      obtain ⟨hk1nin, hndt⟩ := hnd
      have ht : t₁ = t₂ := by
        apply ih t₂ hkt hndt
        intro k
        by_cases hke : k = k₁
        · subst hke
          rw [btreeGet_eq_none hk1nin, btreeGet_eq_none (hkt ▸ hk1nin)]
        · have hh := hget k
          simpa [btreeGet, hke] using hh
      rw [ht]

theorem btreeUpsert_values {α : Type} {P : α → Prop} {k : String} {d : α}
    {f : α → α} {m : List (String × α)}
    (hm : ∀ p ∈ m, P p.2) (hd : P (f d)) (hf : ∀ v, P v → P (f v)) :
    ∀ p ∈ btreeUpsert k d f m, P p.2 := by
  induction m with
  | nil =>
    intro p hp
    simp only [btreeUpsert, List.mem_singleton] at hp
    rw [hp]
    exact hd
  | cons q rest ih =>
    obtain ⟨k', v⟩ := q
    intro p hp
    simp only [btreeUpsert] at hp
    split_ifs at hp with h1 h2
    · rcases List.mem_cons.mp hp with rfl | hp2
      · exact hd
      · exact hm p hp2
    · rcases List.mem_cons.mp hp with rfl | hp2
      · exact hf v (hm (k', v) (List.mem_cons_self _ _))
      · exact hm p (List.mem_cons_of_mem _ hp2)
    · rcases List.mem_cons.mp hp with rfl | hp2
      · exact hm (k', v) (List.mem_cons_self _ _)
      · exact ih (fun q hq => hm q (List.mem_cons_of_mem _ hq)) p hp2

theorem mapSorted_lociUpd {m : List (String × List String)} (hs : MapSorted m)
    (o : ObservationM) : MapSorted (lociUpd m o) := by
  cases o with
  | allele i lo v =>
    constructor
    · rw [lociUpd, keys_btreeUpsert]
      exact sorted_sortedInsert lo _ hs.1
    · rw [lociUpd]
      exact btreeUpsert_values hs.2
        (sorted_sortedInsert v [] List.sorted_nil)
        (fun w hw => sorted_sortedInsert v w hw)
  | group a b => exact hs
  | meta a b c => exact hs

theorem mapSorted_lociFold (l : List ObservationM) :
    ∀ m, MapSorted m → MapSorted (l.foldl lociUpd m) := by
  induction l with
  | nil => intro m hm; exact hm
  | cons o rest ih =>
    intro m hm
    exact ih _ (mapSorted_lociUpd hm o)

theorem mem_keys_lociUpd {m : List (String × List String)} {o : ObservationM}
    {x : String} :
    x ∈ (lociUpd m o).map Prod.fst ↔
      (∃ i v, o = ObservationM.allele i x v) ∨ x ∈ m.map Prod.fst := by
  cases o with
  | allele i lo v =>
    rw [lociUpd, keys_btreeUpsert, mem_sortedInsert]
    constructor
    · rintro (rfl | h)
      · exact Or.inl ⟨i, v, rfl⟩
      · exact Or.inr h
    · rintro (⟨i', v', he⟩ | h)
      · injection he with h1 h2 h3
        exact Or.inl h2.symm
      · exact Or.inr h
  | group a b => simp [lociUpd]
  | meta a b c => simp [lociUpd]

theorem mem_keys_lociFold (l : List ObservationM) :
    ∀ (m : List (String × List String)) (x : String),
      (x ∈ (l.foldl lociUpd m).map Prod.fst ↔
        (∃ i v, ObservationM.allele i x v ∈ l) ∨ x ∈ m.map Prod.fst) := by
  induction l with
  | nil => intro m x; simp
  | cons o rest ih =>
    intro m x
    rw [List.foldl_cons, ih]
    constructor
    · rintro (⟨i, v, hmem⟩ | h)
      · exact Or.inl ⟨i, v, List.mem_cons_of_mem _ hmem⟩
      · rcases mem_keys_lociUpd.mp h with ⟨i, v, rfl⟩ | h2
        · exact Or.inl ⟨i, v, List.mem_cons_self _ _⟩
        · exact Or.inr h2
    · rintro (⟨i, v, hmem⟩ | h)
      · rcases List.mem_cons.mp hmem with heq | hmem2
        · exact Or.inr (mem_keys_lociUpd.mpr (Or.inl ⟨i, v, heq.symm⟩))
        · exact Or.inl ⟨i, v, hmem2⟩
      · exact Or.inr (mem_keys_lociUpd.mpr (Or.inr h))

theorem mem_vars_lociUpd {m : List (String × List String)}
    (hs : (m.map Prod.fst).Sorted (· < ·)) (o : ObservationM) (loc v : String) :
    (∃ vars, btreeGet loc (lociUpd m o) = some vars ∧ v ∈ vars) ↔
      ((∃ vars, btreeGet loc m = some vars ∧ v ∈ vars) ∨
        ∃ i, o = ObservationM.allele i loc v) := by
  cases o with
  | group a b => simp [lociUpd]
  | meta a b c => simp [lociUpd]
  | allele i lo vv =>
    have hmem : ∀ X : List String,
        (∃ vars, (some X : Option (List String)) = some vars ∧ v ∈ vars) ↔ v ∈ X := by
      intro X
      constructor
      · rintro ⟨vars, hv, hm2⟩
        injection hv with hv
        rw [hv]
        exact hm2
      · intro hm2
        exact ⟨X, rfl, hm2⟩
    by_cases hloc : loc = lo
    · subst hloc
      rw [lociUpd, btreeGet_btreeUpsert_self loc [] _ m hs, hmem]
      cases hg : btreeGet loc m with
      | none =>
        simp only [Option.getD_none, mem_sortedInsert, List.not_mem_nil, or_false]
        constructor
        · intro hv
          exact Or.inr ⟨i, by rw [hv]⟩
        · rintro (⟨vars, hv, _⟩ | ⟨i', he⟩)
          · exact absurd hv (by simp)
          · injection he with e1 e2 e3
            exact e3.symm
      | some vars =>
        simp only [Option.getD_some, mem_sortedInsert]
        constructor
        · rintro (hv | hv)
          · exact Or.inr ⟨i, by rw [hv]⟩
          · exact Or.inl ⟨vars, rfl, hv⟩
        · rintro (⟨vars', hv, hm2⟩ | ⟨i', he⟩)
          · injection hv with hv
            rw [← hv] at hm2
            exact Or.inr hm2
          · injection he with e1 e2 e3
            exact Or.inl e3.symm
    · rw [lociUpd, btreeGet_btreeUpsert_ne hloc]
      constructor
      · exact fun h => Or.inl h
      · rintro (h | ⟨i', he⟩)
        · exact h
        · injection he with e1 e2 e3
          exact absurd e2.symm hloc

theorem mem_vars_lociFold (l : List ObservationM) :
    ∀ m, MapSorted m → ∀ loc v,
      ((∃ vars, btreeGet loc (l.foldl lociUpd m) = some vars ∧ v ∈ vars) ↔
        ((∃ vars, btreeGet loc m = some vars ∧ v ∈ vars) ∨
          ∃ i, ObservationM.allele i loc v ∈ l)) := by
  induction l with
  | nil => intro m _ loc v; simp
  | cons o rest ih =>
    intro m hm loc v
    rw [List.foldl_cons, ih _ (mapSorted_lociUpd hm o), mem_vars_lociUpd hm.1]
    constructor
    · rintro ((h | ⟨i, rfl⟩) | ⟨i, hmem⟩)
      · exact Or.inl h
      · exact Or.inr ⟨i, List.mem_cons_self _ _⟩
      · exact Or.inr ⟨i, List.mem_cons_of_mem _ hmem⟩
    · rintro (h | ⟨i, hmem⟩)
      · exact Or.inl (Or.inl h)
      · rcases List.mem_cons.mp hmem with heq | h2
        · exact Or.inl (Or.inr ⟨i, heq.symm⟩)
        · exact Or.inr ⟨i, h2⟩

theorem sorted_eq_of_mem_iff {l₁ l₂ : List String}
    (h₁ : l₁.Sorted (· < ·)) (h₂ : l₂.Sorted (· < ·))
    (h : ∀ x, x ∈ l₁ ↔ x ∈ l₂) : l₁ = l₂ :=
  List.eq_of_perm_of_sorted ((List.perm_ext_iff_of_nodup h₁.nodup h₂.nodup).mpr h) h₁ h₂

theorem observe_loci (s : SampleM) (o : ObservationM) :
    (s._observe o).loci = lociUpd s.loci o := by
  cases o <;> rfl

theorem applyAll_loci (l : List ObservationM) :
    ∀ s : SampleM, (s.applyAll l).loci = l.foldl lociUpd s.loci := by
  induction l with
  | nil => intro s; rfl
  | cons o rest ih =>
    intro s
    show (SampleM.applyAll (s._observe o) rest).loci = _
    rw [ih, observe_loci, List.foldl_cons]

/-- C7.  For a finite set of Allele observations, ingesting any two
permutations of it into a fresh Sample yields identical `loci_names()`
output and identical `variations(locus)` output for every locus: both views
read the key-sorted `BTreeMap` registry, whose contents depend only on the
set of observations ingested. -/
theorem loci_views_order_independent (l₁ l₂ : List ObservationM)
    (_hall : ∀ o ∈ l₁, isAlleleObs o = true) (hp : l₁.Perm l₂) :
    (SampleM.new.applyAll l₁).loci_names = (SampleM.new.applyAll l₂).loci_names ∧
    ∀ loc, (SampleM.new.applyAll l₁).variations loc =
      (SampleM.new.applyAll l₂).variations loc := by
  have hms : MapSorted ([] : List (String × List String)) :=
    ⟨List.sorted_nil, by simp⟩
  have hL : (SampleM.new.applyAll l₁).loci = (SampleM.new.applyAll l₂).loci := by
    rw [applyAll_loci, applyAll_loci]
    show l₁.foldl lociUpd [] = l₂.foldl lociUpd []
    have hs₁ : MapSorted (l₁.foldl lociUpd []) := mapSorted_lociFold l₁ [] hms
    have hs₂ : MapSorted (l₂.foldl lociUpd []) := mapSorted_lociFold l₂ [] hms
    have hkeys : (l₁.foldl lociUpd []).map Prod.fst = (l₂.foldl lociUpd []).map Prod.fst := by
      apply sorted_eq_of_mem_iff hs₁.1 hs₂.1
      intro x
      rw [mem_keys_lociFold, mem_keys_lociFold]
      simp only [List.map_nil, List.not_mem_nil, or_false]
      constructor
      · rintro ⟨i, v, h⟩
        exact ⟨i, v, hp.mem_iff.mp h⟩
      · rintro ⟨i, v, h⟩
        exact ⟨i, v, hp.mem_iff.mpr h⟩
    apply assoc_ext _ _ hkeys hs₁.1.nodup
    intro k
    by_cases hk : k ∈ (l₁.foldl lociUpd []).map Prod.fst
    · obtain ⟨v₁, hv₁⟩ := btreeGet_isSome_of_mem hk
      obtain ⟨v₂, hv₂⟩ := btreeGet_isSome_of_mem (hkeys ▸ hk)
      rw [hv₁, hv₂]
      have hsv₁ : v₁.Sorted (· < ·) := hs₁.2 _ (mem_of_btreeGet_eq_some hv₁)
      have hsv₂ : v₂.Sorted (· < ·) := hs₂.2 _ (mem_of_btreeGet_eq_some hv₂)
      congr 1
      apply sorted_eq_of_mem_iff hsv₁ hsv₂
      intro v
      have h1 := mem_vars_lociFold l₁ [] hms k v
      have h2 := mem_vars_lociFold l₂ [] hms k v
      rw [hv₁] at h1
      rw [hv₂] at h2
      simp only [btreeGet, Option.some.injEq, false_and, exists_false, false_or,
        reduceCtorEq] at h1 h2
      have hm1 : v ∈ v₁ ↔ ∃ i, ObservationM.allele i k v ∈ l₁ := by
        rw [← h1]
        constructor
        · intro hv
          exact ⟨v₁, rfl, hv⟩
        · rintro ⟨vars, hvs, hv⟩
          rw [hvs]
          exact hv
      have hm2 : v ∈ v₂ ↔ ∃ i, ObservationM.allele i k v ∈ l₂ := by
        rw [← h2]
        constructor
        · intro hv
          exact ⟨v₂, rfl, hv⟩
        · rintro ⟨vars, hvs, hv⟩
          rw [hvs]
          exact hv
      rw [hm1, hm2]
      constructor
      · rintro ⟨i, h⟩
        exact ⟨i, hp.mem_iff.mp h⟩
      · rintro ⟨i, h⟩
        exact ⟨i, hp.mem_iff.mpr h⟩
    · rw [btreeGet_eq_none hk, btreeGet_eq_none (hkeys ▸ hk)]
  refine ⟨?_, ?_⟩
  · rw [SampleM.loci_names, SampleM.loci_names, hL]
  · intro loc
    rw [SampleM.variations, SampleM.variations, hL]

/-- C7 witness: the theorem applied to two concrete permutations of two
Allele observations. -/
theorem loci_views_order_independent_witness :
    (SampleM.new.applyAll obsPermA).loci_names =
      (SampleM.new.applyAll obsPermB).loci_names ∧
    (SampleM.new.applyAll obsPermA).variations "L1" =
      (SampleM.new.applyAll obsPermB).variations "L1" :=
  ⟨(loci_views_order_independent obsPermA obsPermB (by decide) (by decide)).1,
   (loci_views_order_independent obsPermA obsPermB (by decide) (by decide)).2 "L1"⟩

/-- `observe` on an all-`Ok` stream applies every observation in order and
reports no error. -/
theorem observe_all_ok (l : List (Except String ObservationM)) :
    ∀ s : SampleM, (∀ x ∈ l, (okPart x).isSome) →
      SampleM.observe s l = (s.applyAll (l.filterMap okPart), none) := by
  induction l with
  | nil => intro s _; rfl
  | cons x rest ih =>
    intro s hall
    cases x with
    | error e =>
      have hx := hall _ (List.mem_cons_self _ _)
      simp [okPart] at hx
    | ok o =>
      show SampleM.observe (s._observe o) rest = _
      rw [ih _ (fun y hy => hall y (List.mem_cons_of_mem _ hy))]
      simp [SampleM.applyAll, okPart, List.filterMap_cons]

/-- `observe` on a stream whose first error follows the `Ok` prefix `pre`
applies exactly the prefix and returns that first error. -/
theorem observe_first_error (pre : List (Except String ObservationM)) :
    ∀ (s : SampleM) (e : String) (suf : List (Except String ObservationM)),
      (∀ x ∈ pre, (okPart x).isSome) →
      SampleM.observe s (pre ++ Except.error e :: suf) =
        (s.applyAll (pre.filterMap okPart), some e) := by
  induction pre with
  | nil => intro s e suf _; rfl
  | cons x pre' ih =>
    intro s e suf hall
    cases x with
    | error e' =>
      have hx := hall _ (List.mem_cons_self _ _)
      simp [okPart] at hx
    | ok o =>
      show SampleM.observe (s._observe o) (pre' ++ Except.error e :: suf) = _
      rw [ih _ e suf (fun y hy => hall y (List.mem_cons_of_mem _ hy))]
      simp [SampleM.applyAll, okPart, List.filterMap_cons]

/-- C9.  `observe` consumes its `Result` sequence in order and stops at the
first `Err`, returning that error, with every observation before the
failing element already applied (and not rolled back); when no element is
an `Err`, every observation is applied and no error is returned. -/
theorem observe_fail_fast (s : SampleM) (l : List (Except String ObservationM)) :
    ((∀ x ∈ l, (okPart x).isSome) →
      SampleM.observe s l = (s.applyAll (l.filterMap okPart), none)) ∧
    (∀ pre e suf, l = pre ++ Except.error e :: suf →
      (∀ x ∈ pre, (okPart x).isSome) →
      SampleM.observe s l = (s.applyAll (pre.filterMap okPart), some e)) :=
  ⟨fun h => observe_all_ok l s h,
   fun pre e suf hl hpre => by rw [hl]; exact observe_first_error pre s e suf hpre⟩

/-- C9 witness: the theorem applied to a concrete stream whose third
element is an error. -/
theorem observe_fail_fast_witness :
    SampleM.observe SampleM.new obsStream =
      (SampleM.new.applyAll
        [ObservationM.allele "i1" "L1" "a", ObservationM.group "i1" "G1"],
        some "bad row") :=
  (observe_fail_fast SampleM.new obsStream).2
    [Except.ok (.allele "i1" "L1" "a"), Except.ok (.group "i1" "G1")]
    "bad row" [Except.ok (.allele "i9" "L9" "z")] rfl (by decide)
